import Mathlib

/-!
Verification of the umamusu-utils decryption core.

This file embeds, as Lean functions, the three algorithmic pieces of the
repository:

* `generate_keys` (src/umamusu/assets/dump.py): derives an XOR keystream
  from a base key and a per-record 64-bit integer key;
* `decrypt_uma_assetbundle` (src/umamusu/assets/dump.py): header-preserving
  XOR stream decryption of an asset bundle;
* `gen_final_key` (src/umamusu/shared.py): DB-key derivation by XOR with a
  fixed 16-byte base key, rendered as a lowercase hex string in
  `meta_cursor`.

Bytes are modelled as `Nat` (values below 256 in all real inputs), byte
strings as `List Nat`, Python integers as `Int`, and raising an exception
as returning `Except.error` carrying the kind of Python exception raised.
The host byte order (Python's `sys.byteorder`) is an explicit parameter of
the key-derivation embedding so that the behaviour of the code on
big-endian hosts can be analysed; `generate_keys` itself is the
instantiation at a little-endian host.
-/

/-- Kinds of Python exceptions the embedded code can raise. -/
inductive PyError where
  | zeroDivisionError : PyError
  | indexError : PyError
  | valueError : String → PyError
deriving DecidableEq, Repr

/-- The fixed asset-bundle base key `ABKey` from src/umamusu/assets/dump.py. -/
def ABKey : List Nat :=
  [0x53, 0x2B, 0x46, 0x31, 0xE4, 0xA7, 0xB9, 0x47, 0x3E, 0x7C, 0xFB]

/-- The 8-byte little-endian encoding of a value below 2^64, as produced by
Python's `struct.pack` with format `<Q`: byte `j` is `v >> (8*j) & 0xFF`. -/
def le_bytes64 (v : Nat) : List Nat :=
  (List.range 8).map (fun j => v / 256 ^ j % 256)

/-- The `key_bytes` computed inside `generate_keys`:
`key_bytes = struct.pack('<Q', key & 0xFFFFFFFFFFFFFFFF)`, then reversed
when `sys.byteorder != 'little'`.  Python's `&` with the 64-bit mask on an
arbitrary (possibly negative) int equals the nonnegative `key mod 2^64`,
which is `Int.emod` here. -/
def key_bytes_on (byteorder : String) (key : Int) : List Nat :=
  if byteorder ≠ "little" then (le_bytes64 ((key % 2 ^ 64).toNat)).reverse
  else le_bytes64 ((key % 2 ^ 64).toNat)

/-- `generate_keys` from src/umamusu/assets/dump.py, with the host byte
order (`sys.byteorder`) as an explicit parameter.  The source writes
`keys[i*8 + j] = base_keys[i] ^ key_bytes[j]` for `i` below
`len(base_keys)` and `j` below 8, filling a buffer of length
`len(base_keys) * 8`; ordering the writes by `i` then `j` is exactly this
flatMap. -/
def generate_keys_on (byteorder : String) (base_keys : List Nat) (key : Int) :
    List Nat :=
  (List.range base_keys.length).flatMap (fun i =>
    (List.range 8).map (fun j =>
      base_keys.getD i 0 ^^^ (key_bytes_on byteorder key).getD j 0))

/-- `generate_keys` as it runs on a little-endian host
(`sys.byteorder == 'little'`, the deployment configuration). -/
def generate_keys (base_keys : List Nat) (key : Int) : List Nat :=
  generate_keys_on "little" base_keys key

/- Helper lemmas about indexing. -/

theorem getD_map_range {f : Nat → Nat} {n i : Nat} (h : i < n) :
    ((List.range n).map f).getD i 0 = f i := by
  rw [List.getD_eq_getElem?_getD, List.getElem?_map, List.getElem?_range h]
  rfl

theorem map_getD_range_self (l : List Nat) :
    (List.range l.length).map (fun i => l.getD i 0) = l := by
  apply List.ext_getElem
  · simp
  · intro n h1 h2
    simp only [List.getElem_map, List.getElem_range]
    rw [List.getD_eq_getElem?_getD, List.getElem?_eq_getElem h2]
    rfl

theorem flatMap_range_map (f : Nat → Nat → Nat) (L : Nat) :
    (List.range L).flatMap (fun i => (List.range 8).map (f i)) =
      (List.range (L * 8)).map (fun idx => f (idx / 8) (idx % 8)) := by
  induction L with
  | zero => simp
  | succ L ih =>
    rw [List.range_succ, List.flatMap_append, ih]
    have h8 : (L + 1) * 8 = L * 8 + 8 := by ring
    rw [h8, List.range_add, List.map_append, List.map_map]
    congr 1
    · simp only [List.flatMap_cons, List.flatMap_nil, List.append_nil]
      apply List.map_congr_left
      intro j hj
      have hj8 : j < 8 := List.mem_range.mp hj
      have hd : (L * 8 + j) / 8 = L := by omega
      have hm : (L * 8 + j) % 8 = j := by omega
      simp [Function.comp, hd, hm]

theorem generate_keys_on_eq (bo : String) (base : List Nat) (key : Int) :
    generate_keys_on bo base key =
      (List.range (base.length * 8)).map (fun idx =>
        base.getD (idx / 8) 0 ^^^ (key_bytes_on bo key).getD (idx % 8) 0) :=
  flatMap_range_map
    (fun i j => base.getD i 0 ^^^ (key_bytes_on bo key).getD j 0) base.length

theorem key_bytes_on_little (key : Int) :
    key_bytes_on "little" key = le_bytes64 ((key % 2 ^ 64).toNat) := by
  simp [key_bytes_on]

/-- C1: for every byte sequence `base_keys` (length `L`, including `L = 0`)
and every integer `record_key`, `generate_keys` returns a byte sequence of
length exactly `L*8` whose byte at index `i*8+j` equals
`base_keys[i] XOR key_bytes[j]`, where `key_bytes` is the 8-byte
little-endian encoding of `record_key` reduced modulo 2^64; empty
`base_keys` yields empty output.  (As a Lean function the embedding is
deterministic and side-effect free by construction.) -/
theorem generate_keys_correct (base_keys : List Nat) (key : Int) :
    (generate_keys base_keys key).length = base_keys.length * 8 ∧
    (∀ i j, i < base_keys.length → j < 8 →
      (generate_keys base_keys key).getD (i * 8 + j) 0 =
        base_keys.getD i 0 ^^^ (le_bytes64 ((key % 2 ^ 64).toNat)).getD j 0) ∧
    (base_keys = [] → generate_keys base_keys key = []) := by
  refine ⟨?_, ?_, ?_⟩
  · rw [generate_keys, generate_keys_on_eq]
    simp
  · intro i j hi hj
    rw [generate_keys, generate_keys_on_eq, key_bytes_on_little]
    have hidx : i * 8 + j < base_keys.length * 8 := by omega
    rw [getD_map_range hidx]
    have hd : (i * 8 + j) / 8 = i := by omega
    have hm : (i * 8 + j) % 8 = j := by omega
    rw [hd, hm]
  · intro h
    subst h
    rfl

/-- C1 witness: the index property of `generate_keys_correct` applied at the
concrete input `base_keys = [1, 2]`, `key = 3`, `i = 1`, `j = 2`. -/
theorem generate_keys_correct_witness :
    (generate_keys [1, 2] 3).getD (1 * 8 + 2) 0 =
      (([1, 2] : List Nat).getD 1 0) ^^^
        (le_bytes64 (((3 : Int) % 2 ^ 64).toNat)).getD 2 0 :=
  (generate_keys_correct [1, 2] 3).2.1 1 2 (by decide) (by decide)

/-- C9: `generate_keys` uses only the low 64 bits of the record key: for
every base key and every integer `k` (negative values from a signed DB
column included), `generate_keys base k = generate_keys base (k mod 2^64)`. -/
theorem generate_keys_mod_2_64 (base_keys : List Nat) (key : Int) :
    generate_keys base_keys key = generate_keys base_keys (key % 2 ^ 64) := by
  have h : key % 2 ^ 64 % 2 ^ 64 = key % 2 ^ 64 :=
    Int.emod_emod_of_dvd key dvd_rfl
  simp [generate_keys, generate_keys_on, key_bytes_on, h]

/-- C6 (code bug): the code does NOT produce identical `key_bytes` on
little- and big-endian hosts.  `struct.pack('<Q', ...)` is already
little-endian regardless of host, so the reversal taken when
`sys.byteorder != 'little'` makes a big-endian host produce the big-endian
encoding: at `record_key = 1` with a single zero base byte, the
little-endian host emits the little-endian bytes `[1,0,0,0,0,0,0,0]` while
a big-endian host emits `[0,0,0,0,0,0,0,1]`, contradicting the specified
host-independent little-endian encoding. -/
theorem generate_keys_bigendian_divergence :
    generate_keys_on "little" [0] 1 = [1, 0, 0, 0, 0, 0, 0, 0] ∧
    generate_keys_on "big" [0] 1 = [0, 0, 0, 0, 0, 0, 0, 1] ∧
    generate_keys_on "big" [0] 1 ≠ generate_keys_on "little" [0] 1 := by
  refine ⟨by decide, by decide, by decide⟩

/-- The fixed header size local to `decrypt_uma_assetbundle`. -/
def HEADER_SIZE : Nat := 256

/-- One iteration of the decryption loop of `decrypt_uma_assetbundle`: the
byte the loop leaves at position `i`, where `m = base_keys_len * 8` is the
modulus of the source expression `keys[i % (base_keys_len * 8)]`.
Positions below `HEADER_SIZE` are never touched by the loop (it starts at
`HEADER_SIZE`); beyond it, Python raises `ZeroDivisionError` when `m = 0`
and `IndexError` when `i % m` falls outside `keys`. -/
def decrypt_byte (data keys : List Nat) (m i : Nat) : Except PyError Nat :=
  if i < HEADER_SIZE then .ok (data.getD i 0)
  else if m = 0 then .error .zeroDivisionError
  else if i % m < keys.length then .ok (data.getD i 0 ^^^ keys.getD (i % m) 0)
  else .error .indexError

/-- The decryption loop over a list of positions, stopping at the first
raised exception (as the Python `for` loop does). -/
def decrypt_list (data keys : List Nat) (m : Nat) :
    List Nat → Except PyError (List Nat)
  | [] => .ok []
  | i :: rest =>
    match decrypt_byte data keys m i with
    | .error e => .error e
    | .ok b =>
      match decrypt_list data keys m rest with
      | .error e => .error e
      | .ok bs => .ok (b :: bs)

/-- `decrypt_uma_assetbundle` from src/umamusu/assets/dump.py, with the
file contents passed directly as `data`: copies `data`, then for every `i`
from `HEADER_SIZE` to `len(data) - 1` XORs position `i` with
`keys[i % (base_keys_len * 8)]`. -/
def decrypt_uma_assetbundle (data keys : List Nat) (base_keys_len : Nat) :
    Except PyError (List Nat) :=
  decrypt_list data keys (base_keys_len * 8) (List.range data.length)

theorem decrypt_list_ok (data keys : List Nat) (m : Nat) (f : Nat → Nat) :
    ∀ l : List Nat, (∀ i ∈ l, decrypt_byte data keys m i = .ok (f i)) →
      decrypt_list data keys m l = .ok (l.map f) := by
  intro l
  induction l with
  | nil => intro _; rfl
  | cons i rest ih =>
    intro h
    have hi := h i (List.mem_cons_self i rest)
    have hrest := ih (fun j hj => h j (List.mem_cons_of_mem i hj))
    simp [decrypt_list, hi, hrest]

theorem decrypt_list_append_error (data keys : List Nat) (m : Nat)
    (l₁ l₂ : List Nat) (e : PyError)
    (h : decrypt_list data keys m l₁ = .error e) :
    decrypt_list data keys m (l₁ ++ l₂) = .error e := by
  induction l₁ with
  | nil => simp [decrypt_list] at h
  | cons i rest ih =>
    rw [List.cons_append]
    cases hbyte : decrypt_byte data keys m i with
    | error e' =>
      rw [decrypt_list, hbyte] at h ⊢
      exact h
    | ok b =>
      rw [decrypt_list, hbyte] at h ⊢
      cases hrest : decrypt_list data keys m rest with
      | error e' =>
        rw [hrest] at h
        simp at h
        subst h
        rw [ih hrest]
      | ok bs =>
        rw [hrest] at h
        exact absurd h (by simp)

theorem decrypt_list_append_ok_error (data keys : List Nat) (m : Nat)
    (l₁ l₂ : List Nat) (b₁ : List Nat) (e : PyError)
    (h₁ : decrypt_list data keys m l₁ = .ok b₁)
    (h₂ : decrypt_list data keys m l₂ = .error e) :
    decrypt_list data keys m (l₁ ++ l₂) = .error e := by
  induction l₁ generalizing b₁ with
  | nil => simpa using h₂
  | cons i rest ih =>
    rw [List.cons_append]
    cases hbyte : decrypt_byte data keys m i with
    | error e' =>
      rw [decrypt_list, hbyte] at h₁
      exact absurd h₁ (by simp)
    | ok b =>
      rw [decrypt_list, hbyte] at h₁ ⊢
      cases hrest : decrypt_list data keys m rest with
      | error e' =>
        rw [hrest] at h₁
        exact absurd h₁ (by simp)
      | ok bs =>
        rw [ih bs hrest]

theorem decrypt_ok (data keys : List Nat) (blen : Nat)
    (hk : keys.length = blen * 8) (hpos : 0 < keys.length) :
    decrypt_uma_assetbundle data keys blen =
      .ok ((List.range data.length).map (fun i =>
        if i < HEADER_SIZE then data.getD i 0
        else data.getD i 0 ^^^ keys.getD (i % keys.length) 0)) := by
  rw [decrypt_uma_assetbundle, ← hk]
  apply decrypt_list_ok
  intro i _
  by_cases hhead : i < HEADER_SIZE
  · simp [decrypt_byte, hhead]
  · have hne : keys.length ≠ 0 := Nat.pos_iff_ne_zero.mp hpos
    have hlt : i % keys.length < keys.length := Nat.mod_lt i hpos
    simp [decrypt_byte, hhead, hne, hlt]

theorem getD_eq_getElem_of_lt {l : List Nat} {i : Nat} (h : i < l.length) :
    l.getD i 0 = l[i] := by
  rw [List.getD_eq_getElem?_getD, List.getElem?_eq_getElem h]
  rfl

/-- C2: for every ciphertext and keystream `keys` used under the caller's
convention `keys.length = base_keys_len * 8` (non-empty), decryption
succeeds and returns a byte sequence of the ciphertext's length whose
first 256 bytes are the ciphertext's first 256 bytes unchanged and whose
byte at every offset `i ≥ 256` is `ciphertext[i] XOR keys[i mod
keys.length]`. -/
theorem decrypt_transforms_tail (data keys : List Nat) (blen : Nat)
    (hk : keys.length = blen * 8) (hpos : 0 < keys.length) :
    ∃ out, decrypt_uma_assetbundle data keys blen = .ok out ∧
      out.length = data.length ∧
      (∀ i, i < 256 → out.getD i 0 = data.getD i 0) ∧
      (∀ i, 256 ≤ i → i < data.length →
        out.getD i 0 = data.getD i 0 ^^^ keys.getD (i % keys.length) 0) := by
  refine ⟨_, decrypt_ok data keys blen hk hpos, ?_, ?_, ?_⟩
  · simp
  · intro i hi
    by_cases hlen : i < data.length
    · rw [getD_map_range hlen, if_pos (show i < HEADER_SIZE from hi)]
    · have h1 : data.length ≤ i := Nat.le_of_not_lt hlen
      have h2 : ((List.range data.length).map (fun i =>
          if i < HEADER_SIZE then data.getD i 0
          else data.getD i 0 ^^^ keys.getD (i % keys.length) 0)).length ≤ i := by
        simpa using h1
      rw [List.getD_eq_default _ _ h2, List.getD_eq_default _ _ h1]
  · intro i h256 hlen
    rw [getD_map_range hlen, if_neg (show ¬ i < HEADER_SIZE by
      simp only [HEADER_SIZE]; omega)]

/-- C2 witness: `decrypt_transforms_tail` applied at the concrete
ciphertext `replicate 300 9`, keystream `[1,…,8]`, `base_keys_len = 1`. -/
theorem decrypt_transforms_tail_witness :
    ∃ out, decrypt_uma_assetbundle (List.replicate 300 9)
        [1, 2, 3, 4, 5, 6, 7, 8] 1 = .ok out ∧
      out.length = (List.replicate 300 9 : List Nat).length ∧
      (∀ i, i < 256 →
        out.getD i 0 = (List.replicate 300 9 : List Nat).getD i 0) ∧
      (∀ i, 256 ≤ i → i < (List.replicate 300 9 : List Nat).length →
        out.getD i 0 = (List.replicate 300 9 : List Nat).getD i 0 ^^^
          ([1, 2, 3, 4, 5, 6, 7, 8] : List Nat).getD
            (i % ([1, 2, 3, 4, 5, 6, 7, 8] : List Nat).length) 0) :=
  decrypt_transforms_tail _ _ 1 (by decide) (by decide)

/-- C4: the header-preserving XOR transformation is an involution — under
the caller's convention `keys.length = base_keys_len * 8` with a
non-empty keystream, decrypting a decrypted buffer with the same keystream
restores the original buffer exactly, header bytes included. -/
theorem decrypt_involution (data keys : List Nat) (blen : Nat)
    (hk : keys.length = blen * 8) (hpos : 0 < keys.length) :
    (decrypt_uma_assetbundle data keys blen).bind
      (fun out => decrypt_uma_assetbundle out keys blen) = .ok data := by
  rw [decrypt_ok data keys blen hk hpos]
  simp only [Except.bind]
  rw [decrypt_ok _ keys blen hk hpos]
  refine congrArg Except.ok ?_
  apply List.ext_getElem
  · simp
  · intro i h₁ h₂
    simp only [List.length_map, List.length_range] at h₁
    simp only [List.getElem_map, List.getElem_range]
    have hout : ((List.range data.length).map (fun i =>
        if i < HEADER_SIZE then data.getD i 0
        else data.getD i 0 ^^^ keys.getD (i % keys.length) 0)).getD i 0 =
        if i < HEADER_SIZE then data.getD i 0
        else data.getD i 0 ^^^ keys.getD (i % keys.length) 0 :=
      getD_map_range h₁
    by_cases hh : i < HEADER_SIZE
    · rw [if_pos hh, hout, if_pos hh, getD_eq_getElem_of_lt h₂]
    · rw [if_neg hh, hout, if_neg hh, Nat.xor_cancel_right,
        getD_eq_getElem_of_lt h₂]

/-- C4 witness: `decrypt_involution` applied at the concrete buffer
`replicate 300 9`, keystream `[1,…,8]`, `base_keys_len = 1`. -/
theorem decrypt_involution_witness :
    (decrypt_uma_assetbundle (List.replicate 300 9)
        [1, 2, 3, 4, 5, 6, 7, 8] 1).bind
      (fun out => decrypt_uma_assetbundle out [1, 2, 3, 4, 5, 6, 7, 8] 1) =
      .ok (List.replicate 300 9) :=
  decrypt_involution _ _ 1 (by decide) (by decide)

/-- C5: every buffer strictly shorter than 256 bytes is returned
byte-for-byte unchanged, for every keystream and every `base_keys_len`
(the transforming loop body never runs). -/
theorem decrypt_short_unchanged (data keys : List Nat) (blen : Nat)
    (h : data.length < 256) :
    decrypt_uma_assetbundle data keys blen = .ok data := by
  have hok : ∀ i ∈ List.range data.length,
      decrypt_byte data keys (blen * 8) i = .ok (data.getD i 0) := by
    intro i hi
    have h256 : i < HEADER_SIZE := by
      have hlt := List.mem_range.mp hi
      simp only [HEADER_SIZE]
      omega
    simp [decrypt_byte, h256]
  rw [decrypt_uma_assetbundle, decrypt_list_ok data keys (blen * 8) _ _ hok,
    map_getD_range_self]

/-- C5 witness: `decrypt_short_unchanged` applied at the concrete
three-byte buffer `[1, 2, 3]`. -/
theorem decrypt_short_unchanged_witness :
    decrypt_uma_assetbundle [1, 2, 3] [4, 5] 2 = .ok [1, 2, 3] :=
  decrypt_short_unchanged [1, 2, 3] [4, 5] 2 (by decide)

/-- C3 counterexample: with a zero-length keystream the decrypt operation
does NOT fail on every ciphertext — a 10-byte ciphertext has no offset at
or beyond 256, the loop body never runs, no modulo is evaluated, and the
buffer is returned unchanged rather than an error being raised. -/
theorem decrypt_zero_keystream_short_ok :
    decrypt_uma_assetbundle (List.replicate 10 7) [] 0 =
      .ok (List.replicate 10 7) := by
  rfl

/-- C3 amended: if the keystream length is zero (`base_keys_len = 0`, so
the modulus `base_keys_len * 8` is zero) and the ciphertext is longer than
256 bytes, the decrypt operation fails with a `ZeroDivisionError` (the
uncaught Python exception from `i % 0`; the code defines no
`DerivationError`) rather than producing garbage output. -/
theorem decrypt_zero_keystream_fails (data keys : List Nat)
    (h : 256 < data.length) :
    decrypt_uma_assetbundle data keys 0 = .error .zeroDivisionError := by
  rw [decrypt_uma_assetbundle]
  simp only [Nat.zero_mul]
  have hsplit : data.length = 257 + (data.length - 257) := by omega
  rw [hsplit, List.range_add]
  apply decrypt_list_append_error
  rw [show (257 : Nat) = 256 + 1 from rfl, List.range_add]
  apply decrypt_list_append_ok_error
  · apply decrypt_list_ok data keys 0 (fun i => data.getD i 0)
    intro i hi
    have h256 : i < HEADER_SIZE := by
      have hlt := List.mem_range.mp hi
      simp only [HEADER_SIZE]
      omega
    simp [decrypt_byte, h256]
  · simp [decrypt_list, decrypt_byte, HEADER_SIZE, List.range_succ]

/-- C3 witness (amended claim): `decrypt_zero_keystream_fails` applied at
the concrete 257-byte ciphertext `replicate 257 5` with empty keystream. -/
theorem decrypt_zero_keystream_fails_witness :
    decrypt_uma_assetbundle (List.replicate 257 5) [] 0 =
      .error .zeroDivisionError :=
  decrypt_zero_keystream_fails (List.replicate 257 5) []
    (by rw [List.length_replicate]; omega)

/-- The fixed `GlobalDBKey` constant from src/umamusu/shared.py (12 bytes). -/
def GlobalDBKey : List Nat :=
  [0x56, 0x63, 0x6B, 0x63, 0x42, 0x72, 0x37, 0x76, 0x65, 0x70, 0x41, 0x62]

/-- The fixed `DBBaseKey` constant from src/umamusu/shared.py (16 bytes). -/
def DBBaseKey : List Nat :=
  [0xF1, 0x70, 0xCE, 0xA4, 0xDF, 0xCE, 0xA3, 0xE1,
   0xA5, 0xD8, 0xC7, 0x0B, 0xD1, 0x00, 0x00, 0x00]

/-- The body of `gen_final_key` from src/umamusu/shared.py with the module
constant `DBBaseKey` abstracted as a parameter `base` (the spec's
`derive_db_key(key, base)` quantifies over the base): raise
`ValueError('Invalid Base Key length')` when `len(base) < 13`, else return
`bytes(key[i] ^ base[i % 13] for i in range(len(key)))`. -/
def gen_final_key_with (base key : List Nat) : Except PyError (List Nat) :=
  if base.length < 13 then .error (.valueError "Invalid Base Key length")
  else .ok ((List.range key.length).map (fun i =>
    key.getD i 0 ^^^ base.getD (i % 13) 0))

/-- `gen_final_key` exactly as in the source: the base is the module-level
constant `DBBaseKey`. -/
def gen_final_key (key : List Nat) : Except PyError (List Nat) :=
  gen_final_key_with DBBaseKey key

/-- One lowercase hexadecimal digit, as Python renders it: `'0'..'9'` for
values below 10, `'a'..'f'` for 10 to 15. -/
def hex_digit (n : Nat) : Char :=
  if n < 10 then Char.ofNat (48 + n) else Char.ofNat (87 + n)

/-- Python's `bytes.hex()`: two lowercase hex digits per byte, high nibble
first. -/
def bytes_hex (bs : List Nat) : String :=
  String.mk (bs.flatMap (fun b => [hex_digit (b / 16 % 16), hex_digit (b % 16)]))

/-- Whether a character is a lowercase hexadecimal digit
(`0`-`9` or `a`-`f`). -/
def is_lower_hex (c : Char) : Bool :=
  (48 ≤ c.toNat && c.toNat ≤ 57) || (97 ≤ c.toNat && c.toNat ≤ 102)

/-- The credential `meta_cursor` hands to the database driver:
`gen_final_key(GlobalDBKey).hex()` (the `hexkey` pragma value). -/
def meta_hexkey : Except PyError String :=
  (gen_final_key GlobalDBKey).map bytes_hex

theorem hex_digit_lower : ∀ n, n < 16 → is_lower_hex (hex_digit n) = true := by
  decide

theorem bytes_hex_lower (bs : List Nat) :
    (bytes_hex bs).data.all is_lower_hex = true := by
  rw [List.all_eq_true]
  intro c hc
  have hc' : c ∈ bs.flatMap
      (fun b => [hex_digit (b / 16 % 16), hex_digit (b % 16)]) := hc
  rcases List.mem_flatMap.mp hc' with ⟨b, _, hcb⟩
  rcases List.mem_cons.mp hcb with h1 | h2
  · subst h1
    exact hex_digit_lower _ (Nat.mod_lt _ (by omega))
  · rcases List.mem_cons.mp h2 with h3 | h4
    · subst h3
      exact hex_digit_lower _ (Nat.mod_lt _ (by omega))
    · simp at h4

theorem DBBaseKey_length : DBBaseKey.length = 16 := rfl

theorem gen_final_key_eq (key : List Nat) :
    gen_final_key key = .ok ((List.range key.length).map (fun i =>
      key.getD i 0 ^^^ DBBaseKey.getD (i % 13) 0)) := by
  rw [gen_final_key, gen_final_key_with, if_neg (by rw [DBBaseKey_length]; omega)]

/-- C7: for every key byte sequence the derived DB key's byte `i` equals
`key[i] XOR DBBaseKey[i mod 13]`, and the value passed to the database
handle by `meta_cursor` is the derived key for `GlobalDBKey` rendered as a
lowercase hexadecimal string. -/
theorem gen_final_key_correct (key : List Nat) (i : Nat)
    (hi : i < key.length) :
    (∃ r, gen_final_key key = .ok r ∧
      r.getD i 0 = key.getD i 0 ^^^ DBBaseKey.getD (i % 13) 0) ∧
    (∃ kr, gen_final_key GlobalDBKey = .ok kr ∧
      meta_hexkey = .ok (bytes_hex kr) ∧
      (bytes_hex kr).data.all is_lower_hex = true) := by
  constructor
  · refine ⟨_, gen_final_key_eq key, ?_⟩
    rw [getD_map_range hi]
  · refine ⟨_, gen_final_key_eq GlobalDBKey, ?_, bytes_hex_lower _⟩
    rw [meta_hexkey, gen_final_key_eq GlobalDBKey]
    rfl

/-- C7 witness: `gen_final_key_correct` applied at the concrete key
`GlobalDBKey` and index `i = 0`. -/
theorem gen_final_key_correct_witness :
    (∃ r, gen_final_key GlobalDBKey = .ok r ∧
      r.getD 0 0 = GlobalDBKey.getD 0 0 ^^^ DBBaseKey.getD (0 % 13) 0) ∧
    (∃ kr, gen_final_key GlobalDBKey = .ok kr ∧
      meta_hexkey = .ok (bytes_hex kr) ∧
      (bytes_hex kr).data.all is_lower_hex = true) :=
  gen_final_key_correct GlobalDBKey 0 (by decide)

/-- C8: the length guard of the DB key derivation — a base shorter than 13
bytes makes it fail with the `ValueError('Invalid Base Key length')`
(the spec's `InvalidKeyLength`) before any key byte is computed; a base of
length exactly 13 with a key of length 12 (`GlobalDBKey`'s length)
succeeds; a base of length 12 fails with the same error. -/
theorem gen_final_key_length_guard (base key : List Nat) :
    (base.length < 13 →
      gen_final_key_with base key =
        .error (.valueError "Invalid Base Key length")) ∧
    (base.length = 13 → key.length = 12 →
      ∃ r, gen_final_key_with base key = .ok r ∧ r.length = 12) ∧
    (base.length = 12 →
      gen_final_key_with base key =
        .error (.valueError "Invalid Base Key length")) := by
  refine ⟨?_, ?_, ?_⟩
  · intro h
    rw [gen_final_key_with, if_pos h]
  · intro hb hk
    refine ⟨_, by rw [gen_final_key_with, if_neg (by omega)], ?_⟩
    simp [hk]
  · intro h
    rw [gen_final_key_with, if_pos (by omega)]

/-- C8 witness: `gen_final_key_length_guard` applied to a concrete 13-byte
base with `GlobalDBKey` (success) and to a concrete 12-byte base
(failure). -/
theorem gen_final_key_length_guard_witness :
    (∃ r, gen_final_key_with (List.replicate 13 0) GlobalDBKey = .ok r ∧
      r.length = 12) ∧
    gen_final_key_with (List.replicate 12 0) GlobalDBKey =
      .error (.valueError "Invalid Base Key length") :=
  ⟨(gen_final_key_length_guard (List.replicate 13 0) GlobalDBKey).2.1
      (by decide) (by decide),
    (gen_final_key_length_guard (List.replicate 12 0) GlobalDBKey).2.2
      (by decide)⟩

/-- C10: `gen_final_key` is total and never raises — its base is the fixed
16-byte `DBBaseKey`, so the `len(DBBaseKey) < 13` guard is always false
and the error branch is unreachable; for every input key it returns a
result of the key's length. -/
theorem gen_final_key_total (key : List Nat) :
    ∃ r, gen_final_key key = .ok r ∧ r.length = key.length := by
  refine ⟨_, gen_final_key_eq key, ?_⟩
  simp
